import Mathlib

/-
Verification of the growable-vector container in `advanced-vector/vector.h`.

Two models of `Vector<T>` are developed.

1. `AdvVec.Vec` — the value-level model of the success paths: the vector's
   observable state is the list of stored element values (`elems`, in index
   order, of length `size_`) together with the allocated `capacity`
   (`data_.Capacity()`).  Each public operation is translated from the
   corresponding member function of `Vector<T>`, keeping the branch
   structure of the code (growth test `data_.Capacity() <= size_`, growth
   amount `size_ == 0 ? 1 : size_ * 2`, the reuse/copy-and-swap branches of
   copy assignment, ...).

2. `AdvVec.MVec` — the memory-level model used for the exception-safety
   claims: the backing buffer is a list of slots (`Option α`; `none` is an
   uninitialized slot), `size_` is kept separately, and the primitives of
   the code (`operator new` placement construction, `uninitialized_copy_n`
   / `uninitialized_move_n` with their cleanup-on-exception semantics,
   `destroy_n`, `move_backward`) are modelled one by one, including what
   each leaves behind when an element operation throws partway.  A move
   leaves its source holding a moved-from residue, modelled by an explicit
   function `mv : α → α`.
-/

namespace AdvMem

/-- A raw buffer of `n` element slots, all uninitialized
(`RawMemory<T>::Allocate`). -/
def allocRaw (α : Type) (n : Nat) : List (Option α) :=
  List.replicate n none

/-- Placement-construct value `x` into slot `i`
(`new (buf + i) T(...)`). -/
def constructAt (buf : List (Option α)) (i : Nat) (x : α) : List (Option α) :=
  buf.set i (some x)

/-- Destroy the `n` slots starting at `start` (`std::destroy_n(buf + start, n)`);
the slots become uninitialized again. -/
def destroyRange (buf : List (Option α)) (start : Nat) : Nat → List (Option α)
  | 0 => buf
  | n + 1 => destroyRange (buf.set start none) (start + 1) n

/-- `n` successful element transfers from `src` (starting at slot `i`) into
`dst` (same slot numbers), as performed by `std::uninitialized_copy_n` /
`std::uninitialized_move_n` on the prefix they complete before a throw.
`useMove = true` models the move branch: each transferred source slot is left
holding the moved-from residue `mv x`.  `useMove = false` models the copy
branch: the source is untouched. -/
def transferFrom (useMove : Bool) (mv : α → α) :
    Nat → Nat → List (Option α) × List (Option α) → List (Option α) × List (Option α)
  | _, 0, p => p
  | i, n + 1, (src, dst) =>
      let cell := src.getD i none
      let dst1 := dst.set i cell
      let src1 := if useMove then src.set i (cell.map mv) else src
      transferFrom useMove mv (i + 1) n (src1, dst1)

end AdvMem

namespace AdvVec

/-- Observable state of `Vector<T>`: the stored element values in index
order (slots `[0, size_)` of `data_`) and the allocated capacity
(`data_.Capacity()`). -/
structure Vec (α : Type) where
  elems : List α
  cap : Nat
  deriving Repr, DecidableEq

/-- `Vector<T>::Size()`: the number of live elements. -/
def Vec.size (v : Vec α) : Nat :=
  v.elems.length

/-- The container invariant `size_ <= data_.Capacity()`. -/
def Inv (v : Vec α) : Prop :=
  v.size ≤ v.cap

instance (v : Vec α) : Decidable (Inv v) := by
  unfold Inv; infer_instance

/-- The default-constructed vector: `size_ = 0`, no buffer. -/
def Vec.empty (α : Type) : Vec α := ⟨[], 0⟩

/-- The capacity chosen by the growth paths of `PushBack` / `EmplaceBack` /
`Emplace`: `size_ == 0 ? 1 : size_ * 2`. -/
def growCap (size : Nat) : Nat :=
  if size = 0 then 1 else size * 2

/-- `Vector<T>::PushBack(value)`.  If `data_.Capacity() <= size_`, a new
buffer of `growCap size_` slots is allocated, the new element is constructed
into it at index `size_`, the old elements are transferred in index order,
the originals destroyed and the buffers swapped; otherwise the element is
constructed in place at index `size_`.  Either way `size_++`, and the stored
values are the old ones followed by `x`. -/
def Vec.pushBack (v : Vec α) (x : α) : Vec α :=
  if v.cap ≤ v.elems.length then
    { elems := v.elems ++ [x], cap := growCap v.elems.length }
  else
    { elems := v.elems ++ [x], cap := v.cap }

/-- `Vector<T>::EmplaceBack(args...)`: same state change as `PushBack`, and
returns `data_[size_++]` — the element at the old size index of the new
state (`none` models the out-of-range read that cannot happen). -/
def Vec.emplaceBack (v : Vec α) (x : α) : Vec α × Option α :=
  let v1 :=
    if v.cap ≤ v.elems.length then
      { elems := v.elems ++ [x], cap := growCap v.elems.length }
    else
      { elems := v.elems ++ [x], cap := v.cap }
  (v1, v1.elems[v.elems.length]?)

/-- `Vector<T>::Emplace(pos, args...)` with `indx = pos - begin()`
(precondition `begin() <= pos <= end()` is asserted).  Growth path
(`data_.Capacity() <= size_`): the new element is constructed at `indx` in a
fresh buffer of `growCap size_` slots, the prefix `[0, indx)` and suffix
`[indx, size_)` are transferred around it, originals destroyed, buffers
swapped.  In-place path: a temporary holds the new value, the last element
is moved into the trailing slot, `[indx, size_-1)` is shifted right with
`std::move_backward`, the temporary is move-assigned into slot `indx` (or,
when `pos == end()`, the value is constructed directly in the trailing
slot).  Both paths end with `size_++` and return `begin() + indx`; the
returned component is that index. -/
def Vec.emplace (v : Vec α) (indx : Nat) (x : α) : Vec α × Nat :=
  if v.cap ≤ v.elems.length then
    ({ elems := v.elems.take indx ++ [x] ++ v.elems.drop indx,
       cap := growCap v.elems.length }, indx)
  else
    ({ elems := v.elems.take indx ++ [x] ++ v.elems.drop indx,
       cap := v.cap }, indx)

/-- `Vector<T>::Insert(pos, item)`: delegates to `Emplace(pos, item)`. -/
def Vec.insert (v : Vec α) (indx : Nat) (x : α) : Vec α × Nat :=
  v.emplace indx x

/-- `Vector<T>::Erase(pos)` with `indx = pos - begin()` (precondition
`begin() <= pos < end()` is asserted): shifts `[indx+1, size_)` one slot
left with `std::move`, destroys the last live slot, `size_ -= 1`, and
returns `begin() + indx`; the returned component is that index. -/
def Vec.erase (v : Vec α) (indx : Nat) : Vec α × Nat :=
  ({ elems := v.elems.take indx ++ v.elems.drop (indx + 1), cap := v.cap }, indx)

/-- `Vector<T>::PopBack()` (precondition `size_ != 0` is asserted): destroys
the last live element, `--size_`. -/
def Vec.popBack (v : Vec α) : Vec α :=
  { elems := v.elems.dropLast, cap := v.cap }

/-- `Vector<T>::Reserve(new_capacity)`: returns immediately when
`new_capacity <= data_.Capacity()`; otherwise allocates a buffer of exactly
`new_capacity` slots, transfers the `size_` elements in index order,
destroys the originals and swaps buffers. -/
def Vec.reserve (v : Vec α) (c : Nat) : Vec α :=
  if c ≤ v.cap then v else { elems := v.elems, cap := c }

/-- `Vector<T>::Resize(new_size)`: shrinking destroys `[new_size, size_)`;
growing first calls `Reserve(max(capacity * 2, new_size))` when
`new_size > data_.Capacity()`, then value-constructs `[size_, new_size)`. -/
def Vec.resize [Inhabited α] (v : Vec α) (n : Nat) : Vec α :=
  if n < v.elems.length then
    { elems := v.elems.take n, cap := v.cap }
  else
    let v1 := if v.cap < n then v.reserve (max (v.cap * 2) n) else v
    { elems := v1.elems ++ List.replicate (n - v1.elems.length) default,
      cap := v1.cap }

/-- `Vector<T>::operator=(const Vector&)`.  `sameObject` models the
`this != &other` check.  When `other.size_` fits in the current capacity the
existing buffer is reused (assign over the common prefix, then copy-construct
the surplus of `other` or destroy the surplus of `*this`); the stored values
become `other`'s and the capacity is untouched.  Otherwise a full copy
`Vector other_copy(other)` is built — the copy constructor allocates exactly
`other.size_` slots — and swapped in. -/
def Vec.assignCopy (v other : Vec α) (sameObject : Bool) : Vec α :=
  if sameObject then v
  else if other.elems.length ≤ v.cap then
    { elems := other.elems, cap := v.cap }
  else
    { elems := other.elems, cap := other.elems.length }

/-- Copy assignment acting on the (target, source) pair: the source is taken
by const reference and never written. -/
def Vec.assignCopyPair (v other : Vec α) : Vec α × Vec α :=
  (v.assignCopy other false, other)

/-- `Vector<T>::Swap(other)`: exchanges `data_` and `size_`. -/
def Vec.swapOp (v other : Vec α) : Vec α × Vec α :=
  (other, v)

/-- `Vector<T>::operator=(Vector&&)`: `Swap(other)`, so the pair of states
is exchanged. -/
def Vec.assignMovePair (v other : Vec α) : Vec α × Vec α :=
  Vec.swapOp v other

/-- `n` consecutive `PushBack` calls. -/
def Vec.pushMany (v : Vec α) : List α → Vec α
  | [] => v
  | x :: xs => (v.pushBack x).pushMany xs

end AdvVec

namespace AdvMem

/-- Memory-level state of `Vector<T>`: the buffer `data_` as a list of
slots (capacity = number of slots) and the member `size_`. -/
structure MVec (α : Type) where
  data : List (Option α)
  size : Nat
  deriving Repr, DecidableEq

/-- The capacity `data_.Capacity()`. -/
def MVec.cap (v : MVec α) : Nat :=
  v.data.length

/-- The observable element values: the constructed contents of the live
slots `[0, size_)`. -/
def MVec.view (v : MVec α) : List α :=
  (v.data.take v.size).reduceOption

/-- The memory-level container invariant: `size_` fits in the buffer, every
live slot `[0, size_)` holds a constructed element, and every slot
`[size_, capacity)` is uninitialized. -/
def MVec.wfb (v : MVec α) : Bool :=
  decide (v.size ≤ v.data.length) &&
    (v.data.take v.size).all Option.isSome &&
    (v.data.drop v.size).all (fun c => c.isNone)

/-- The transfer branch chosen by
`if constexpr (std::is_nothrow_move_constructible_v<T> || !std::is_copy_constructible_v<T>)`
in `Reserve`, `PushBack`, `EmplaceBack` and `Emplace`: move when `T`'s move
construction cannot throw or `T` is not copy-constructible, otherwise copy. -/
def usesMoveTransfer (nothrowMove copyable : Bool) : Bool :=
  nothrowMove || !copyable

/-- Execution of the growth path of `PushBack` in which the bulk transfer
throws after `k` elements have been transferred (only possible when the
chosen element operation can throw).  The steps before the throw run as in
the code: `RawMemory<T> new_data(size_ == 0 ? 1 : size_ * 2)`, placement
construction of the new element at slot `size_` of `new_data`, then `k`
element transfers from `data_` into `new_data`.  On the throw,
`uninitialized_copy_n` / `uninitialized_move_n` destroy the `k` elements
they constructed, `new_data`'s destructor releases the buffer, and the
exception propagates: `destroy_n`, `Swap` and `size_++` never run, so the
vector keeps its members `data_` (as the transfer left it) and `size_`. -/
def pushBackGrowThrowAt (useMove : Bool) (mv : α → α) (v : MVec α) (x : α) (k : Nat) :
    MVec α :=
  let nd0 := allocRaw α (if v.size = 0 then 1 else v.size * 2)
  let nd1 := constructAt nd0 v.size x
  let p := transferFrom useMove mv 0 k (v.data, nd1)
  let _discarded := destroyRange p.2 0 k
  { data := p.1, size := v.size }

/-- Execution of the growth path of `PushBack` in which the placement
construction of the new element itself throws: only the fresh buffer was
allocated, it is released by `RawMemory`'s destructor, and `data_` / `size_`
were never touched. -/
def pushBackGrowThrowCtor (v : MVec α) : MVec α :=
  let _discarded := allocRaw α (if v.size = 0 then 1 else v.size * 2)
  { data := v.data, size := v.size }

/-- Execution of `Reserve(new_capacity)` in which the bulk transfer throws
after `k` transferred elements.  When `new_capacity <= data_.Capacity()` the
function returns before doing anything; otherwise the fresh buffer is
allocated, `k` transfers run, the throw destroys the `k` constructed
elements, the buffer is released, and `destroy_n` / `Swap` never run. -/
def reserveThrowAt (useMove : Bool) (mv : α → α) (v : MVec α) (c k : Nat) : MVec α :=
  if c ≤ v.data.length then v
  else
    let nd0 := allocRaw α c
    let p := transferFrom useMove mv 0 k (v.data, nd0)
    let _discarded := destroyRange p.2 0 k
    { data := p.1, size := v.size }

/-- Execution of the `other.size_ > data_.Capacity()` branch of copy
assignment in which building `Vector other_copy(other)` throws after `k`
elements were copy-constructed: the copy constructor allocates `other.size_`
slots and copy-constructs into them; on the throw the `k` constructed
copies are destroyed and the buffer released.  Nothing of the target was
touched before the throw, and the source was only read.  The result is the
(target, source) pair after unwinding. -/
def copyAssignGrowThrowAt (v other : MVec α) (k : Nat) : MVec α × MVec α :=
  let nd0 := allocRaw α other.size
  let p := transferFrom false id 0 k (other.data, nd0)
  let _discarded := destroyRange p.2 0 k
  ({ data := v.data, size := v.size }, { data := p.1, size := other.size })

/-- One move-assignment step of `std::move_backward`: slot `j + 1` is
assigned the value of slot `j`, and slot `j` is left holding the moved-from
residue `mv` of its value. -/
def moveBackStep (mv : α → α) (buf : List (Option α)) (j : Nat) : List (Option α) :=
  let cell := buf.getD j none
  (buf.set (j + 1) cell).set j (cell.map mv)

/-- The first `t` move-assignments completed by
`std::move_backward(begin() + indx, end() - 1, end())`, which proceeds from
the back: sources `size_ - 2, size_ - 3, ...` in that order. -/
def moveBackSteps (mv : α → α) (buf : List (Option α)) : Nat → Nat → List (Option α)
  | _, 0 => buf
  | s, t + 1 => moveBackSteps mv (moveBackStep mv buf s) (s - 1) t

/-- Execution of the in-place path of `Emplace` (`size_ < capacity`,
`pos != end()`) in which the shift throws after `t` completed
move-assignments.  Steps before the throw: the temporary
`T new_s(args...)` is built (its value never reaches the buffer),
`new (end()) T(std::forward<T>(data_[size_ - 1]))`
move-constructs the last element into the trailing slot (leaving slot
`size_ - 1` holding the moved-from residue), and `std::move_backward`
completes `t` assignments from the back before one throws.  The catch block
runs `operator delete(end())` — which deallocates the interior address
`data_.GetAddress() + size_`, destroying nothing — and rethrows, so
`size_++` never runs. -/
def emplaceInPlaceShiftThrow (mv : α → α) (v : MVec α) (t : Nat) : MVec α :=
  let last := v.data.getD (v.size - 1) none
  let buf1 := (v.data.set v.size last).set (v.size - 1) (last.map mv)
  let buf2 := moveBackSteps mv buf1 (v.size - 2) t
  { data := buf2, size := v.size }

/-- `n` successful element transfers from `src` starting at slot `sp` into
`dst` starting at slot `dp`, as completed by `std::uninitialized_copy_n` /
`std::uninitialized_move_n` before a throw — the general form used by the
growth path of `Emplace`, whose suffix segment reads from `data_ + indx`
and writes to `new_data + indx + 1`.  `useMove = true` leaves each
transferred source slot holding the moved-from residue `mv x`;
`useMove = false` leaves the source untouched. -/
def transferSeg (useMove : Bool) (mv : α → α) :
    Nat → Nat → Nat → List (Option α) × List (Option α) →
      List (Option α) × List (Option α)
  | _, _, 0, p => p
  | sp, dp, n + 1, (src, dst) =>
      let cell := src.getD sp none
      let dst1 := dst.set dp cell
      let src1 := if useMove then src.set sp (cell.map mv) else src
      transferSeg useMove mv (sp + 1) (dp + 1) n (src1, dst1)

/-- Execution of the growth path of `Emplace` in which the placement
construction of the new element at slot `indx` of the fresh buffer throws:
only `RawMemory<T> new_data(size_ == 0 ? 1 : size_ * 2)` ran before it, the
buffer is released by `RawMemory`'s destructor, and `data_` / `size_` were
never touched — this holds for every transfer policy, since no transfer has
started. -/
def emplaceGrowThrowCtor (v : MVec α) : MVec α :=
  let _discarded := allocRaw α (if v.size = 0 then 1 else v.size * 2)
  { data := v.data, size := v.size }

/-- Execution of the growth path of `Emplace` in which the two-segment bulk
transfer throws (only possible when the chosen element operation can
throw).  The steps before the throw run as in the code: the fresh buffer of
`size_ == 0 ? 1 : size_ * 2` slots is allocated, the new element is
constructed at its slot `indx`, the prefix transfer `[0, indx)` completes
`k1` elements and the suffix transfer from `data_ + indx` into
`new_data + indx + 1` completes `k2` elements before one throws (`k2 = 0`
when the prefix segment itself throws).  The throwing algorithm destroys
the elements it constructed, `new_data`'s destructor releases the buffer,
and `destroy_n` / `Swap` / `size_++` never run, so the vector keeps its
members `data_` (as the transfers left it) and `size_`. -/
def emplaceGrowThrowAt (useMove : Bool) (mv : α → α) (v : MVec α) (x : α)
    (indx k1 k2 : Nat) : MVec α :=
  let nd0 := allocRaw α (if v.size = 0 then 1 else v.size * 2)
  let nd1 := constructAt nd0 indx x
  let p1 := transferSeg useMove mv 0 0 k1 (v.data, nd1)
  let p2 := transferSeg useMove mv indx (indx + 1) k2 p1
  let _discarded := destroyRange (destroyRange p2.2 0 k1) (indx + 1) k2
  { data := p2.1, size := v.size }

end AdvMem

namespace AdvVec

/-- One public mutating operation on a vector, as invoked by a client.  The
operations that involve a second vector carry that vector's observable state
(`w`, `c`).  `becomeCopyOf` / `becomeMoveOf` model the state of a vector
produced by copy / move construction from an existing one, and
`becomeMoveSource` the state a vector is left in after being moved from. -/
inductive Op (α : Type) where
  | pushBack (x : α)
  | emplaceBack (x : α)
  | insert (i : Nat) (x : α)
  | emplace (i : Nat) (x : α)
  | erase (i : Nat)
  | popBack
  | reserve (n : Nat)
  | resize (n : Nat)
  | assignCopyFrom (w : List α) (c : Nat)
  | assignMoveFrom (w : List α) (c : Nat)
  | swapWith (w : List α) (c : Nat)
  | becomeCopyOf (w : List α)
  | becomeMoveOf (w : List α) (c : Nat)
  | becomeMoveSource

/-- Apply one operation.  Positions and non-emptiness are preconditions
asserted by the code (`assert` in `Emplace`, `Erase`, `PopBack`); a call
violating them is undefined and is modelled as not taken (identity), and an
operation importing another vector's state requires that state to satisfy
the other vector's own invariant. -/
def stepOp [Inhabited α] (v : Vec α) : Op α → Vec α
  | .pushBack x => v.pushBack x
  | .emplaceBack x => (v.emplaceBack x).1
  | .insert i x => if i ≤ v.size then (v.insert i x).1 else v
  | .emplace i x => if i ≤ v.size then (v.emplace i x).1 else v
  | .erase i => if i < v.size then (v.erase i).1 else v
  | .popBack => if v.size = 0 then v else v.popBack
  | .reserve n => v.reserve n
  | .resize n => v.resize n
  | .assignCopyFrom w c => v.assignCopy ⟨w, c⟩ false
  | .assignMoveFrom w c => if w.length ≤ c then (v.assignMovePair ⟨w, c⟩).1 else v
  | .swapWith w c => if w.length ≤ c then (v.swapOp ⟨w, c⟩).1 else v
  | .becomeCopyOf w => ⟨w, w.length⟩
  | .becomeMoveOf w c => if w.length ≤ c then ⟨w, c⟩ else v
  | .becomeMoveSource => ⟨[], 0⟩

/-- Modelled from the spec: the expected element values after each
operation, per the testable properties of the spec (append puts the value
last; insert at `i` keeps the prefix, places the value at `i` and shifts
the rest right; erase at `i` keeps the prefix and shifts the rest left;
`popBack` drops the last; `reserve` does not change the values; `resize`
truncates or pads with default values; assignment / swap / construction
take over the other vector's values; a moved-from vector is empty). -/
def specElems [Inhabited α] (l : List α) : Op α → List α
  | .pushBack x => l ++ [x]
  | .emplaceBack x => l ++ [x]
  | .insert i x => if i ≤ l.length then l.take i ++ [x] ++ l.drop i else l
  | .emplace i x => if i ≤ l.length then l.take i ++ [x] ++ l.drop i else l
  | .erase i => if i < l.length then l.take i ++ l.drop (i + 1) else l
  | .popBack => if l.length = 0 then l else l.dropLast
  | .reserve _ => l
  | .resize n =>
      if n < l.length then l.take n else l ++ List.replicate (n - l.length) default
  | .assignCopyFrom w _ => w
  | .assignMoveFrom w c => if w.length ≤ c then w else l
  | .swapWith w c => if w.length ≤ c then w else l
  | .becomeCopyOf w => w
  | .becomeMoveOf w c => if w.length ≤ c then w else l
  | .becomeMoveSource => []

/-- Run a sequence of operations from the default-constructed vector. -/
def runOps [Inhabited α] (ops : List (Op α)) : Vec α :=
  ops.foldl stepOp (Vec.empty α)

/-- Modelled from the spec: the expected values after a whole sequence. -/
def specRun [Inhabited α] (ops : List (Op α)) : List α :=
  ops.foldl specElems []

end AdvVec

namespace AdvVec

theorem take_length_of_le (l : List α) (i : Nat) (hi : i ≤ l.length) :
    (l.take i).length = i := by
  simp [Nat.min_eq_left hi]

theorem insertAt_getElem_lt (l : List α) (x : α) (i j : Nat) (hi : i ≤ l.length)
    (hj : j < i) :
    (l.take i ++ [x] ++ l.drop i)[j]? = l[j]? := by
  rw [List.getElem?_append, if_pos (by simp [take_length_of_le l i hi]; omega),
    List.getElem?_append, if_pos (by rw [take_length_of_le l i hi]; omega),
    List.getElem?_take, if_pos hj]

theorem insertAt_getElem_self (l : List α) (x : α) (i : Nat) (hi : i ≤ l.length) :
    (l.take i ++ [x] ++ l.drop i)[i]? = some x := by
  rw [List.getElem?_append, if_pos (by simp [take_length_of_le l i hi]),
    List.getElem?_append_right (by rw [take_length_of_le l i hi]),
    take_length_of_le l i hi]
  simp

theorem insertAt_getElem_shift (l : List α) (x : α) (i j : Nat) (hi : i ≤ l.length)
    (hj : i ≤ j) :
    (l.take i ++ [x] ++ l.drop i)[j + 1]? = l[j]? := by
  rw [List.getElem?_append_right (by simp [take_length_of_le l i hi]; omega)]
  simp only [List.length_append, take_length_of_le l i hi, List.length_cons,
    List.length_nil]
  rw [List.getElem?_drop]
  congr 1
  omega

end AdvVec

namespace AdvVec

/-- C2: `PushBack(x)` / `EmplaceBack(x)` append: the new size is the old
size plus one, the element at the old size index is `x`, all previously
stored elements keep their values and order, the capacity becomes
`max 1 (2 * capacity)` exactly when the vector was full and is unchanged
otherwise, and `EmplaceBack` returns the newly appended element. -/
theorem pushBack_appends (v : Vec α) (x : α) (h : Inv v) :
    (v.pushBack x).size = v.size + 1 ∧
    (v.pushBack x).elems = v.elems ++ [x] ∧
    (v.pushBack x).elems[v.size]? = some x ∧
    (∀ j, j < v.size → (v.pushBack x).elems[j]? = v.elems[j]?) ∧
    (v.pushBack x).cap = (if v.size = v.cap then max 1 (2 * v.cap) else v.cap) ∧
    (v.emplaceBack x).1 = v.pushBack x ∧
    (v.emplaceBack x).2 = some x := by
  have helems : (v.pushBack x).elems = v.elems ++ [x] := by
    unfold Vec.pushBack; split <;> rfl
  have hat : (v.elems ++ [x])[v.elems.length]? = some x := by
    rw [List.getElem?_append_right (Nat.le_refl _)]
    simp
  refine ⟨?_, helems, ?_, ?_, ?_, ?_, ?_⟩
  · simp [Vec.size, helems]
  · rw [show (v.pushBack x).elems[v.size]? = (v.pushBack x).elems[v.elems.length]?
      from rfl, helems]
    exact hat
  · intro j hj
    have hj2 : j < v.elems.length := hj
    rw [helems, List.getElem?_append, if_pos hj2]
  · simp only [Vec.pushBack]
    split
    · next hc =>
        have heq : v.elems.length = v.cap := Nat.le_antisymm h hc
        show growCap v.elems.length = _
        rw [show v.size = v.elems.length from rfl, if_pos heq]
        unfold growCap
        split <;> omega
    · next hc =>
        show v.cap = _
        rw [show v.size = v.elems.length from rfl,
          if_neg (by intro he; exact hc (Nat.le_of_eq he.symm))]
  · unfold Vec.emplaceBack Vec.pushBack
    rfl
  · simp only [Vec.emplaceBack]
    split
    · exact hat
    · exact hat

/-- Witness for `pushBack_appends` at `v = ⟨[5], 2⟩`, `x = 7`. -/
theorem pushBack_appends_check :
    ((⟨[5], 2⟩ : Vec Nat).pushBack 7).elems = [5, 7] :=
  (pushBack_appends (⟨[5], 2⟩ : Vec Nat) 7 (by decide)).2.1

end AdvVec

namespace AdvVec

theorem emplace_elems (v : Vec α) (i : Nat) (x : α) :
    (v.emplace i x).1.elems = v.elems.take i ++ [x] ++ v.elems.drop i := by
  unfold Vec.emplace; split <;> rfl

/-- C4: `Insert`/`Emplace` at a valid index `i ≤ size`: the new size is the
old size plus one, the element at index `i` is the inserted value, the
elements before `i` are unchanged, every element that was at an index
`j ≥ i` is found at `j + 1`, and the returned iterator points at the newly
inserted element (index `i`); `Insert` is exactly `Emplace`. -/
theorem emplace_inserts (v : Vec α) (i : Nat) (x : α) (hi : i ≤ v.size) :
    (v.emplace i x).1.size = v.size + 1 ∧
    (v.emplace i x).1.elems[i]? = some x ∧
    (∀ j, j < i → (v.emplace i x).1.elems[j]? = v.elems[j]?) ∧
    (∀ j, i ≤ j → (v.emplace i x).1.elems[j + 1]? = v.elems[j]?) ∧
    (v.emplace i x).2 = i ∧
    v.insert i x = v.emplace i x := by
  have hi2 : i ≤ v.elems.length := hi
  refine ⟨?_, ?_, ?_, ?_, ?_, rfl⟩
  · simp [Vec.size, emplace_elems, take_length_of_le v.elems i hi2]
    omega
  · rw [emplace_elems]
    exact insertAt_getElem_self v.elems x i hi2
  · intro j hj
    rw [emplace_elems]
    exact insertAt_getElem_lt v.elems x i j hi2 hj
  · intro j hj
    rw [emplace_elems]
    exact insertAt_getElem_shift v.elems x i j hi2 hj
  · unfold Vec.emplace; split <;> rfl

/-- Witness for `emplace_inserts` at `v = ⟨[1, 2, 3], 3⟩`, `i = 1`,
`x = 9`: the contents become `[1, 9, 2, 3]`. -/
theorem emplace_inserts_check :
    ((⟨[1, 2, 3], 3⟩ : Vec Nat).emplace 1 9).1.elems[1]? = some 9 :=
  (emplace_inserts (⟨[1, 2, 3], 3⟩ : Vec Nat) 1 9 (by decide)).2.1

theorem eraseAt_getElem_lt (l : List α) (i j : Nat) (hi : i ≤ l.length) (hj : j < i) :
    (l.take i ++ l.drop (i + 1))[j]? = l[j]? := by
  rw [List.getElem?_append, if_pos (by rw [take_length_of_le l i hi]; omega),
    List.getElem?_take, if_pos hj]

theorem eraseAt_getElem_ge (l : List α) (i j : Nat) (hi : i ≤ l.length) (hj : i ≤ j) :
    (l.take i ++ l.drop (i + 1))[j]? = l[j + 1]? := by
  rw [List.getElem?_append_right (by rw [take_length_of_le l i hi]; omega),
    take_length_of_le l i hi, List.getElem?_drop]
  congr 1
  omega

/-- C5: `Erase` at a valid index `i < size`: the new size is the old size
minus one, the elements before `i` are unchanged, every element that was at
an index `j > i` is found at `j - 1`, the capacity is unchanged (no
reallocation), and the returned iterator is index `i` — the slot now holding
the erased element's successor (`end()` when the last element was erased). -/
theorem erase_shifts (v : Vec α) (i : Nat) (hi : i < v.size) :
    (v.erase i).1.size = v.size - 1 ∧
    (v.erase i).1.cap = v.cap ∧
    (∀ j, j < i → (v.erase i).1.elems[j]? = v.elems[j]?) ∧
    (∀ j, i ≤ j → (v.erase i).1.elems[j]? = v.elems[j + 1]?) ∧
    (v.erase i).2 = i := by
  have hi2 : i ≤ v.elems.length := Nat.le_of_lt hi
  refine ⟨?_, rfl, ?_, ?_, rfl⟩
  · show (v.elems.take i ++ v.elems.drop (i + 1)).length = v.elems.length - 1
    rw [List.length_append, take_length_of_le v.elems i hi2, List.length_drop]
    have : i < v.elems.length := hi
    omega
  · intro j hj
    exact eraseAt_getElem_lt v.elems i j hi2 hj
  · intro j hj
    exact eraseAt_getElem_ge v.elems i j hi2 hj

/-- Witness for `erase_shifts` at `v = ⟨[1, 9, 2, 3], 4⟩`, `i = 0`: the
element that was at index 1 moves to index 0. -/
theorem erase_shifts_check :
    ((⟨[1, 9, 2, 3], 4⟩ : Vec Nat).erase 0).1.elems[0]? = some 9 :=
  (erase_shifts (⟨[1, 9, 2, 3], 4⟩ : Vec Nat) 0 (by decide)).2.2.2.1 0 (by decide)

end AdvVec

namespace AdvVec

/-- C10: on a non-empty vector, `PopBack` decreases the size by one and
changes nothing else: the remaining elements keep their values and the
capacity is unchanged. -/
theorem popBack_frame (v : Vec α) (h : v.elems ≠ []) :
    v.popBack.size = v.size - 1 ∧
    v.popBack.cap = v.cap ∧
    (∀ j, j < v.size - 1 → v.popBack.elems[j]? = v.elems[j]?) := by
  refine ⟨?_, rfl, ?_⟩
  · show v.elems.dropLast.length = v.elems.length - 1
    simp
  · intro j hj
    have hj2 : j < v.elems.length - 1 := hj
    show v.elems.dropLast[j]? = v.elems[j]?
    rw [List.getElem?_dropLast, if_pos hj2]

/-- Witness for `popBack_frame` at `v = ⟨[9, 2, 7], 4⟩`. -/
theorem popBack_frame_check :
    ((⟨[9, 2, 7], 4⟩ : Vec Nat).popBack).cap = 4 :=
  (popBack_frame (⟨[9, 2, 7], 4⟩ : Vec Nat) (by decide)).2.1

/-- C9: self-assignment is the identity: copy-assigning a vector to itself
(the `this != &other` check makes it a no-op, and even without it the
storage-reuse branch would rewrite the same values in place) and
move-assigning a vector to itself (`Swap` with itself) leave size, capacity
and element values unchanged. -/
theorem selfAssign_id (v : Vec α) (h : Inv v) :
    (∀ b : Bool, v.assignCopy v b = v) ∧
    (v.assignMovePair v).1 = v ∧ (v.assignMovePair v).2 = v := by
  refine ⟨?_, rfl, rfl⟩
  intro b
  unfold Vec.assignCopy
  cases b with
  | true => rfl
  | false =>
      simp only [Bool.false_eq_true, if_false]
      rw [if_pos (show v.elems.length ≤ v.cap from h)]

/-- Witness for `selfAssign_id` at `v = ⟨[3, 4], 2⟩`. -/
theorem selfAssign_id_check :
    (⟨[3, 4], 2⟩ : Vec Nat).assignCopy ⟨[3, 4], 2⟩ false = ⟨[3, 4], 2⟩ :=
  (selfAssign_id (⟨[3, 4], 2⟩ : Vec Nat) (by decide)).1 false

theorem pushMany_frame (xs : List α) :
    ∀ v : Vec α, v.elems.length + xs.length ≤ v.cap →
      (v.pushMany xs).cap = v.cap ∧ (v.pushMany xs).elems = v.elems ++ xs := by
  induction xs with
  | nil => intro v _; simp [Vec.pushMany]
  | cons x xs ih =>
      intro v h
      have hlt : ¬ v.cap ≤ v.elems.length := by simp at h; omega
      have hpb : v.pushBack x = ⟨v.elems ++ [x], v.cap⟩ := by
        unfold Vec.pushBack; rw [if_neg hlt]
      have hstep : v.pushMany (x :: xs) = (⟨v.elems ++ [x], v.cap⟩ : Vec α).pushMany xs := by
        show (v.pushBack x).pushMany xs = _
        rw [hpb]
      have hr := ih ⟨v.elems ++ [x], v.cap⟩ (by simp at h ⊢; omega)
      rw [hstep]
      refine ⟨hr.1, ?_⟩
      rw [hr.2]
      simp

end AdvVec

namespace AdvVec

/-- C6: `Reserve(c)` is a no-op when `c` does not exceed the current
capacity; otherwise it sets the capacity to exactly `c` and leaves the
stored values (and hence the size) unchanged.  Consequently, after
`Reserve(c)`, any run of at most `c - size` further `PushBack` calls never
changes the capacity (and appends the pushed values). -/
theorem reserve_caps (v : Vec α) (c : Nat) :
    (c ≤ v.cap → v.reserve c = v) ∧
    (v.cap < c → (v.reserve c).cap = c ∧ (v.reserve c).elems = v.elems) ∧
    (∀ xs : List α, xs.length ≤ c - v.size →
      ((v.reserve c).pushMany xs).cap = (v.reserve c).cap ∧
      ((v.reserve c).pushMany xs).elems = v.elems ++ xs) := by
  refine ⟨?_, ?_, ?_⟩
  · intro hc
    unfold Vec.reserve
    rw [if_pos hc]
  · intro hc
    unfold Vec.reserve
    rw [if_neg (by omega)]
    exact ⟨rfl, rfl⟩
  · intro xs hxs
    have helems : (v.reserve c).elems = v.elems := by
      unfold Vec.reserve; split <;> rfl
    cases xs with
    | nil => exact ⟨rfl, by simp [Vec.pushMany, helems]⟩
    | cons y ys =>
        have hsc : v.size < c := by
          have h1 : 1 ≤ c - v.size := Nat.le_trans (by simp) hxs
          omega
        have hc2 : c ≤ (v.reserve c).cap := by
          unfold Vec.reserve; split
          · next hc => exact hc
          · exact Nat.le_refl c
        have hfit : (v.reserve c).elems.length + (y :: ys).length ≤ (v.reserve c).cap := by
          rw [helems]
          have hvs : v.size = v.elems.length := rfl
          omega
        have hr := pushMany_frame (y :: ys) (v.reserve c) hfit
        exact ⟨hr.1, by rw [hr.2, helems]⟩

end AdvVec

namespace AdvVec

/-- Witness for `reserve_caps` at `v = ⟨[1], 1⟩`, `c = 3`: two appends
after the reserve leave the capacity where the reserve put it. -/
theorem reserve_caps_check :
    (((⟨[1], 1⟩ : Vec Nat).reserve 3).pushMany [2, 3]).cap =
      ((⟨[1], 1⟩ : Vec Nat).reserve 3).cap :=
  ((reserve_caps (⟨[1], 1⟩ : Vec Nat) 3).2.2 [2, 3] (by decide)).1

end AdvVec

namespace AdvMem

theorem transferFrom_copy_keeps_src (mv : α → α) :
    ∀ (k i : Nat) (src dst : List (Option α)),
      (transferFrom false mv i k (src, dst)).1 = src := by
  intro k
  induction k with
  | zero => intro i src dst; rfl
  | succ k ih =>
      intro i src dst
      show (transferFrom false mv (i + 1) k (src, dst.set i (src.getD i none))).1 = src
      exact ih (i + 1) src _

theorem transferSeg_copy_keeps_src (mv : α → α) :
    ∀ (n sp dp : Nat) (p : List (Option α) × List (Option α)),
      (transferSeg false mv sp dp n p).1 = p.1 := by
  intro n
  induction n with
  | zero => intro sp dp p; rfl
  | succ n ih =>
      intro sp dp p
      obtain ⟨src, dst⟩ := p
      show (transferSeg false mv (sp + 1) (dp + 1) n
        (src, dst.set dp (src.getD sp none))).1 = src
      exact ih (sp + 1) (dp + 1) (src, _)

/-- C1 (amended): if an exception is thrown during a reallocating operation
— `Reserve`, or the growth path of `PushBack`, of `EmplaceBack` (whose
growth path is line for line that of `PushBack`), or of positional
`Emplace` — then: a throw while constructing the new element leaves the
vector's members `data_` and `size_` — hence its size, capacity and element
values — identical to their state before the call for every `T`, since the
construction precedes every transfer; and a throw during the bulk transfer
(the single segment of `PushBack` / `EmplaceBack` / `Reserve`, or either of
the two segments of `Emplace` around the new element) does the same
whenever the transfer policy selected copying (`T` copy-constructible, move
construction not known nothrow).  When the policy selects moving because
`T` is not copy-constructible and that move throws mid-transfer,
already-moved elements are left holding moved-from residues (see
`grow_throw_move_changes_state`). -/
theorem grow_throw_keeps_state (ntm cp : Bool) (mv : α → α) (v : MVec α) (x : α)
    (c k indx k1 k2 : Nat) :
    pushBackGrowThrowCtor v = v ∧
    emplaceGrowThrowCtor v = v ∧
    (usesMoveTransfer ntm cp = false →
      pushBackGrowThrowAt (usesMoveTransfer ntm cp) mv v x k = v ∧
      reserveThrowAt (usesMoveTransfer ntm cp) mv v c k = v ∧
      emplaceGrowThrowAt (usesMoveTransfer ntm cp) mv v x indx k1 k2 = v) := by
  refine ⟨rfl, rfl, ?_⟩
  intro hpolicy
  rw [hpolicy]
  refine ⟨?_, ?_, ?_⟩
  · simp only [pushBackGrowThrowAt]
    rw [transferFrom_copy_keeps_src]
  · simp only [reserveThrowAt]
    split
    · rfl
    · rw [transferFrom_copy_keeps_src]
  · simp only [emplaceGrowThrowAt]
    rw [transferSeg_copy_keeps_src, transferSeg_copy_keeps_src]

/-- Witness for `grow_throw_keeps_state`: a copyable type with a possibly
throwing move uses the copy transfer, and a growth-triggering `Emplace` at
index 1 on `[5, 7]` whose suffix transfer throws after the prefix completed
leaves the vector unchanged. -/
theorem grow_throw_keeps_state_check :
    emplaceGrowThrowAt (usesMoveTransfer false true) (fun _ => 0)
        (⟨[some 5, some 7], 2⟩ : MVec Nat) 9 1 1 1 =
      (⟨[some 5, some 7], 2⟩ : MVec Nat) :=
  ((grow_throw_keeps_state false true (fun _ => 0)
    (⟨[some 5, some 7], 2⟩ : MVec Nat) 9 0 1 1 1 1).2.2 (by decide)).2.2

/-- C1 (counterexample to the claim as stated): a type that is not
copy-constructible and whose move construction can throw selects the move
transfer; a growth-triggering `PushBack` on `[5, 7]` whose transfer throws
after moving one element leaves the vector holding the moved-from residue
`0` in place of `5`: the observable state after the call differs from the
state before it. -/
theorem grow_throw_move_changes_state :
    (pushBackGrowThrowAt (usesMoveTransfer false false) (fun _ => 0)
        (⟨[some 5, some 7], 2⟩ : MVec Nat) 9 1).view ≠
      (⟨[some 5, some 7], 2⟩ : MVec Nat).view := by
  decide

/-- C3 (evaluation of the code at the failing input): on the vector
`[10, 20]` with capacity 4 — a state satisfying the container invariant —
the in-place `Emplace` at index 0 whose shift throws on its first
move-assignment leaves the live range holding `[10, 0]` (`0` being the
moved-from residue of `20`): the original last element is no longer among
the live elements, its value sitting only in the leaked slot past `size_`,
and the resulting state violates the invariant — slot 2, beyond `size_`,
still holds a constructed element that the catch block's
`operator delete(end())` neither destroyed nor accounted for. -/
theorem emplace_inplace_throw_breaks_invariant :
    (emplaceInPlaceShiftThrow (fun _ => 0)
        (⟨[some 10, some 20, none, none], 2⟩ : MVec Nat) 0).view ≠
      (⟨[some 10, some 20, none, none], 2⟩ : MVec Nat).view ∧
    (emplaceInPlaceShiftThrow (fun _ => 0)
        (⟨[some 10, some 20, none, none], 2⟩ : MVec Nat) 0).wfb = false ∧
    (⟨[some 10, some 20, none, none], 2⟩ : MVec Nat).wfb = true := by
  decide

end AdvMem

namespace AdvVec

/-- C7: copy assignment `a = b` between distinct vectors: `a` ends up with
exactly `b`'s element values in order and `b` is untouched; when `b`'s size
fits within `a`'s capacity the existing storage is reused and `a`'s capacity
is unchanged; when it exceeds it, a full copy of capacity `b.size` is built
and swapped in — and if building that copy throws after any number of
copied elements, both vectors are left exactly as they were. -/
theorem assignCopy_spec (a b : Vec α) (am bm : AdvMem.MVec α) (k : Nat) :
    (a.assignCopyPair b).1.elems = b.elems ∧
    (a.assignCopyPair b).2 = b ∧
    (b.size ≤ a.cap → (a.assignCopyPair b).1.cap = a.cap) ∧
    (a.cap < b.size → (a.assignCopyPair b).1.cap = b.size) ∧
    AdvMem.copyAssignGrowThrowAt am bm k = (am, bm) := by
  refine ⟨?_, rfl, ?_, ?_, ?_⟩
  · show (a.assignCopy b false).elems = b.elems
    unfold Vec.assignCopy
    simp only [Bool.false_eq_true, if_false]
    split <;> rfl
  · intro hb
    show (a.assignCopy b false).cap = a.cap
    unfold Vec.assignCopy
    simp only [Bool.false_eq_true, if_false]
    rw [if_pos (show b.elems.length ≤ a.cap from hb)]
  · intro hb
    show (a.assignCopy b false).cap = b.size
    unfold Vec.assignCopy
    simp only [Bool.false_eq_true, if_false]
    rw [if_neg (show ¬ b.elems.length ≤ a.cap by
      have : a.cap < b.elems.length := hb
      omega)]
    rfl
  · simp only [AdvMem.copyAssignGrowThrowAt]
    rw [AdvMem.transferFrom_copy_keeps_src]

/-- Witness for `assignCopy_spec` at `a = ⟨[1, 2, 3], 4⟩`, `b = ⟨[7], 1⟩`:
the target reuses its storage and keeps capacity 4. -/
theorem assignCopy_spec_check :
    ((⟨[1, 2, 3], 4⟩ : Vec Nat).assignCopyPair ⟨[7], 1⟩).1.cap = 4 :=
  (assignCopy_spec (⟨[1, 2, 3], 4⟩ : Vec Nat) ⟨[7], 1⟩ ⟨[], 0⟩ ⟨[], 0⟩ 0).2.2.1
    (by decide)

end AdvVec

namespace AdvVec

theorem pushBack_inv (v : Vec α) (x : α) (h : Inv v) : Inv (v.pushBack x) := by
  have hvc : v.elems.length ≤ v.cap := h
  unfold Vec.pushBack
  split
  · show (v.elems ++ [x]).length ≤ growCap v.elems.length
    unfold growCap
    simp only [List.length_append, List.length_cons, List.length_nil]
    split <;> omega
  · next hc =>
      show (v.elems ++ [x]).length ≤ v.cap
      simp only [List.length_append, List.length_cons, List.length_nil]
      omega

theorem emplace_inv (v : Vec α) (i : Nat) (x : α) (h : Inv v) (hi : i ≤ v.elems.length) :
    Inv (v.emplace i x).1 := by
  have hvc : v.elems.length ≤ v.cap := h
  have hlen : (v.elems.take i ++ [x] ++ v.elems.drop i).length = v.elems.length + 1 := by
    simp only [List.length_append, take_length_of_le v.elems i hi, List.length_cons,
      List.length_nil, List.length_drop]
    omega
  unfold Vec.emplace
  split
  · show (v.elems.take i ++ [x] ++ v.elems.drop i).length ≤ growCap v.elems.length
    rw [hlen]
    unfold growCap
    split <;> omega
  · next hc =>
      show (v.elems.take i ++ [x] ++ v.elems.drop i).length ≤ v.cap
      rw [hlen]
      omega

theorem resize_props [Inhabited α] (v : Vec α) (n : Nat) (h : Inv v) :
    Inv (v.resize n) ∧
    (v.resize n).elems =
      (if n < v.elems.length then v.elems.take n
       else v.elems ++ List.replicate (n - v.elems.length) default) := by
  have hvc : v.elems.length ≤ v.cap := h
  by_cases hn : n < v.elems.length
  · have hres : v.resize n = ⟨v.elems.take n, v.cap⟩ := by
      unfold Vec.resize
      rw [if_pos hn]
    rw [hres, if_pos hn]
    refine ⟨?_, rfl⟩
    show (v.elems.take n).length ≤ v.cap
    rw [take_length_of_le v.elems n (by omega)]
    omega
  · by_cases hc : v.cap < n
    · have hres : v.resize n =
          ⟨v.elems ++ List.replicate (n - v.elems.length) default, max (v.cap * 2) n⟩ := by
        unfold Vec.resize
        rw [if_neg hn]
        show (⟨(if v.cap < n then v.reserve (max (v.cap * 2) n) else v).elems ++ _,
          (if v.cap < n then v.reserve (max (v.cap * 2) n) else v).cap⟩ : Vec α) = _
        rw [if_pos hc, show v.reserve (max (v.cap * 2) n) =
          ⟨v.elems, max (v.cap * 2) n⟩ by unfold Vec.reserve; rw [if_neg (by omega)]]
      rw [hres, if_neg hn]
      refine ⟨?_, rfl⟩
      show (v.elems ++ List.replicate (n - v.elems.length) default).length ≤
          max (v.cap * 2) n
      simp only [List.length_append, List.length_replicate]
      omega
    · have hres : v.resize n =
          ⟨v.elems ++ List.replicate (n - v.elems.length) default, v.cap⟩ := by
        unfold Vec.resize
        rw [if_neg hn]
        show (⟨(if v.cap < n then v.reserve (max (v.cap * 2) n) else v).elems ++ _,
          (if v.cap < n then v.reserve (max (v.cap * 2) n) else v).cap⟩ : Vec α) = _
        rw [if_neg hc]
      rw [hres, if_neg hn]
      refine ⟨?_, rfl⟩
      show (v.elems ++ List.replicate (n - v.elems.length) default).length ≤ v.cap
      simp only [List.length_append, List.length_replicate]
      omega

end AdvVec

namespace AdvVec

theorem stepOp_preserves [Inhabited α] (v : Vec α) (op : Op α) (h : Inv v) :
    Inv (stepOp v op) ∧ (stepOp v op).elems = specElems v.elems op := by
  have hvc : v.elems.length ≤ v.cap := h
  cases op with
  | pushBack x =>
      refine ⟨pushBack_inv v x h, ?_⟩
      show (v.pushBack x).elems = v.elems ++ [x]
      unfold Vec.pushBack
      split <;> rfl
  | emplaceBack x =>
      refine ⟨pushBack_inv v x h, ?_⟩
      show (v.pushBack x).elems = v.elems ++ [x]
      unfold Vec.pushBack
      split <;> rfl
  | insert i x =>
      show Inv (if i ≤ v.size then (v.insert i x).1 else v) ∧
        (if i ≤ v.size then (v.insert i x).1 else v).elems =
          (if i ≤ v.elems.length then v.elems.take i ++ [x] ++ v.elems.drop i
           else v.elems)
      by_cases hi : i ≤ v.elems.length
      · rw [if_pos (show i ≤ v.size from hi), if_pos hi]
        exact ⟨emplace_inv v i x h hi, emplace_elems v i x⟩
      · rw [if_neg (show ¬ i ≤ v.size from hi), if_neg hi]
        exact ⟨h, rfl⟩
  | emplace i x =>
      show Inv (if i ≤ v.size then (v.emplace i x).1 else v) ∧
        (if i ≤ v.size then (v.emplace i x).1 else v).elems =
          (if i ≤ v.elems.length then v.elems.take i ++ [x] ++ v.elems.drop i
           else v.elems)
      by_cases hi : i ≤ v.elems.length
      · rw [if_pos (show i ≤ v.size from hi), if_pos hi]
        exact ⟨emplace_inv v i x h hi, emplace_elems v i x⟩
      · rw [if_neg (show ¬ i ≤ v.size from hi), if_neg hi]
        exact ⟨h, rfl⟩
  | erase i =>
      show Inv (if i < v.size then (v.erase i).1 else v) ∧
        (if i < v.size then (v.erase i).1 else v).elems =
          (if i < v.elems.length then v.elems.take i ++ v.elems.drop (i + 1)
           else v.elems)
      by_cases hi : i < v.elems.length
      · rw [if_pos (show i < v.size from hi), if_pos hi]
        refine ⟨?_, rfl⟩
        show (v.elems.take i ++ v.elems.drop (i + 1)).length ≤ v.cap
        rw [List.length_append, take_length_of_le v.elems i (by omega),
          List.length_drop]
        omega
      · rw [if_neg (show ¬ i < v.size from hi), if_neg hi]
        exact ⟨h, rfl⟩
  | popBack =>
      show Inv (if v.size = 0 then v else v.popBack) ∧
        (if v.size = 0 then v else v.popBack).elems =
          (if v.elems.length = 0 then v.elems else v.elems.dropLast)
      by_cases hz : v.elems.length = 0
      · rw [if_pos (show v.size = 0 from hz), if_pos hz]
        exact ⟨h, rfl⟩
      · rw [if_neg (show ¬ v.size = 0 from hz), if_neg hz]
        refine ⟨?_, rfl⟩
        show v.elems.dropLast.length ≤ v.cap
        rw [List.length_dropLast]
        omega
  | reserve n =>
      refine ⟨?_, ?_⟩
      · show Inv (v.reserve n)
        unfold Vec.reserve
        split
        · exact h
        · show v.elems.length ≤ n
          omega
      · show (v.reserve n).elems = v.elems
        unfold Vec.reserve
        split <;> rfl
  | resize n => exact resize_props v n h
  | assignCopyFrom w c =>
      show Inv (v.assignCopy ⟨w, c⟩ false) ∧ (v.assignCopy ⟨w, c⟩ false).elems = w
      unfold Vec.assignCopy
      simp only [Bool.false_eq_true, if_false]
      split
      · next hw => exact ⟨hw, rfl⟩
      · exact ⟨Nat.le_refl _, rfl⟩
  | assignMoveFrom w c =>
      show Inv (if w.length ≤ c then (v.assignMovePair ⟨w, c⟩).1 else v) ∧
        (if w.length ≤ c then (v.assignMovePair ⟨w, c⟩).1 else v).elems =
          (if w.length ≤ c then w else v.elems)
      by_cases hw : w.length ≤ c
      · rw [if_pos hw, if_pos hw]
        exact ⟨hw, rfl⟩
      · rw [if_neg hw, if_neg hw]
        exact ⟨h, rfl⟩
  | swapWith w c =>
      show Inv (if w.length ≤ c then (v.swapOp ⟨w, c⟩).1 else v) ∧
        (if w.length ≤ c then (v.swapOp ⟨w, c⟩).1 else v).elems =
          (if w.length ≤ c then w else v.elems)
      by_cases hw : w.length ≤ c
      · rw [if_pos hw, if_pos hw]
        exact ⟨hw, rfl⟩
      · rw [if_neg hw, if_neg hw]
        exact ⟨h, rfl⟩
  | becomeCopyOf w => exact ⟨Nat.le_refl _, rfl⟩
  | becomeMoveOf w c =>
      show Inv (if w.length ≤ c then (⟨w, c⟩ : Vec α) else v) ∧
        (if w.length ≤ c then (⟨w, c⟩ : Vec α) else v).elems =
          (if w.length ≤ c then w else v.elems)
      by_cases hw : w.length ≤ c
      · rw [if_pos hw, if_pos hw]
        exact ⟨hw, rfl⟩
      · rw [if_neg hw, if_neg hw]
        exact ⟨h, rfl⟩
  | becomeMoveSource => exact ⟨Nat.le_refl _, rfl⟩

theorem foldl_preserves [Inhabited α] :
    ∀ (ops : List (Op α)) (v : Vec α), Inv v →
      Inv (ops.foldl stepOp v) ∧
      (ops.foldl stepOp v).elems = ops.foldl specElems v.elems := by
  intro ops
  induction ops with
  | nil => intro v h; exact ⟨h, rfl⟩
  | cons op ops ih =>
      intro v h
      have hstep := stepOp_preserves v op h
      have hrest := ih (stepOp v op) hstep.1
      refine ⟨hrest.1, ?_⟩
      show (ops.foldl stepOp (stepOp v op)).elems = ops.foldl specElems (specElems v.elems op)
      rw [hrest.2, hstep.2]

/-- C8: for every sequence of public operations applied to the
default-constructed empty vector — appends, positional inserts and
emplaces, erases, pops, reserve, resize, copy/move assignment, swap,
copy/move construction — the invariant `size ≤ capacity` holds after every
call, and the live range holds exactly the expected element values in
order, namely those computed by the spec-level list semantics `specElems`
(any prefix of a sequence being itself a sequence). -/
theorem reachable_invariant [Inhabited α] (ops : List (Op α)) :
    Inv (runOps ops) ∧ (runOps ops).elems = specRun ops :=
  foldl_preserves ops (Vec.empty α) (Nat.le_refl 0)

end AdvVec
